import Mathlib

/-!
Verification of the PyAccuNGS aggregation core against its specification.

The definitions below are a shallow embedding of the Python sources:
`aggregation.py` (frequency aggregation, prefix compaction, aggregation
coordinator), `utils.py` (`create_new_ref_with_freqs`) and `runner.py`
(iteration loop and top-level error handling).  Machine floats are
modelled by exact rationals; pandas `round` (banker's rounding) is
modelled by `roundHalfEvenInt`/`roundDec`.
-/

/-! ### Rounding (pandas / numpy banker's rounding on exact rationals) -/

/-- Round a rational to the nearest integer, halves to even
(the rounding used by python `round`, `np.round` and `pandas.round`). -/
def roundHalfEvenInt (q : ℚ) : ℤ :=
  let f : ℤ := ⌊q⌋
  let r : ℚ := q - (f : ℚ)
  if r < 1/2 then f
  else if 1/2 < r then f + 1
  else if f % 2 = 0 then f else f + 1

/-- Round a rational to the nearest integer, as a rational
(python `round(pos)` used as a lookup key). -/
def roundHalfEvenQ (q : ℚ) : ℚ := (roundHalfEvenInt q : ℚ)

/-- Round a rational to `d` decimal places, halves to even
(pandas `round(x, d)`). -/
def roundDec (d : ℕ) (q : ℚ) : ℚ :=
  (roundHalfEvenInt (q * (10 : ℚ) ^ d) : ℚ) / (10 : ℚ) ^ d

theorem roundHalfEvenInt_intCast (n : ℤ) : roundHalfEvenInt (n : ℚ) = n := by
  unfold roundHalfEvenInt
  simp

theorem roundHalfEvenQ_natCast (n : ℕ) : roundHalfEvenQ ((n : ℕ) : ℚ) = (n : ℚ) := by
  unfold roundHalfEvenQ
  have h : ((n : ℕ) : ℚ) = ((n : ℤ) : ℚ) := by push_cast; ring
  rw [h, roundHalfEvenInt_intCast]

theorem roundDec_int_div (d : ℕ) (n : ℤ) :
    roundDec d ((n : ℚ) / (10 : ℚ) ^ d) = (n : ℚ) / (10 : ℚ) ^ d := by
  unfold roundDec
  have hne : ((10 : ℚ) ^ d) ≠ 0 := by positivity
  rw [div_mul_cancel₀ _ hne, roundHalfEvenInt_intCast]

theorem roundDec_four_three (q : ℚ) : roundDec 4 (roundDec 3 q) = roundDec 3 q := by
  have h : roundDec 3 q = ((10 * roundHalfEvenInt (q * (10 : ℚ) ^ 3) : ℤ) : ℚ) / (10 : ℚ) ^ 4 := by
    unfold roundDec
    push_cast
    ring
  rw [h, roundDec_int_div]

/-! ### Prefix Compactor (`aggregation.py`: `update_prefix_dict`, `trim_read_id_prefixes`)

The prefix dictionary is modelled as an association list (python dicts
preserve insertion order); a file with a `read_id` column is modelled by
the list of its `read_id` values. -/

/-- First 31 characters of a read id (`x[:prefix_length]`). -/
def take31 (s : String) : String := String.mk (s.toList.take 31)

/-- Remainder of a read id after the prefix (`x[prefix_length:]`). -/
def drop31 (s : String) : String := String.mk (s.toList.drop 31)

/-- Order-preserving removal of duplicates (pandas `.unique`). -/
def uniqueFirst {α : Type} [DecidableEq α] (l : List α) : List α :=
  l.foldl (fun acc x => if x ∈ acc then acc else acc ++ [x]) []

/-- Keys of the prefix dictionary. -/
def dictKeys (d : List (String × ℕ)) : List String := d.map Prod.fst

/-- Values of the prefix dictionary. -/
def dictVals (d : List (String × ℕ)) : List ℕ := d.map Prod.snd

/-- Maximum of the dictionary values (`max(read_id_prefix_dict.values())`,
0 for the empty dictionary so that `next_prefix_value = 1` in both python
branches). -/
def maxVal (d : List (String × ℕ)) : ℕ := (dictVals d).foldr max 0

/-- Dictionary lookup (`read_id_prefix_dict[prefix]`). -/
def lookupP (d : List (String × ℕ)) (k : String) : Option ℕ :=
  (d.find? (fun e => decide (e.1 = k))).map Prod.snd

/-- Embedding of `update_prefix_dict`: `next_prefix_value` starts at
`max(values)+1` (1 when empty) and each prefix not already a key is
appended with the next value. -/
def update_prefix_dict (d : List (String × ℕ)) (prefixes : List String) :
    List (String × ℕ) :=
  (prefixes.foldl
    (fun acc p =>
      if acc.1.any (fun e => decide (e.1 = p)) then acc
      else (acc.1 ++ [(p, acc.2)], acc.2 + 1))
    (d, maxVal d + 1)).1

/-- The keys a call to `update_prefix_dict` will add, in insertion order:
first occurrences among `prefixes` that are not already keys. -/
def newKeys (ks : List String) : List String → List String
  | [] => []
  | p :: ps => if p ∈ ks then newKeys ks ps else p :: newKeys (ks ++ [p]) ps

/-- Embedding of `trim_read_id_prefixes`: pass 1 accumulates the 31-character
prefixes of every nonempty file into the dictionary, pass 2 rewrites each
read id `x` to `str(dict[x[:31]]) ++ "-" ++ x[31:]`.  Returns the rewritten
files and the final dictionary. -/
def trim_read_id_prefixes (files : List (List String)) (d : List (String × ℕ)) :
    List (List String) × List (String × ℕ) :=
  let d2 := files.foldl
    (fun acc file =>
      if file.isEmpty then acc
      else update_prefix_dict acc (uniqueFirst (file.map take31)))
    d
  (files.map (fun file =>
      if file.isEmpty then file
      else file.map (fun x => toString ((lookupP d2 (take31 x)).getD 0) ++ "-" ++ drop31 x)),
    d2)

/-- Dictionaries reachable from the empty dictionary by `update_prefix_dict`. -/
inductive ReachableDict : List (String × ℕ) → Prop
  | base : ReachableDict []
  | step (d : List (String × ℕ)) (ps : List String) :
      ReachableDict d → ReachableDict (update_prefix_dict d ps)

/-! ### Base-call records and frequency aggregation (`aggregation.py`)

A base-call record (one row of a `called_bases` file) and the grouped
allele-frequency table.  Float columns are modelled by exact rationals. -/

structure BCR where
  ref_pos : ℚ
  read_base : Char
  ref_base : Char
  read_id : String
  overlap : ℕ
  quality : ℕ
deriving DecidableEq

/-- A group key of `groupby(['ref_pos', 'read_base', 'ref_base'])`. -/
structure GroupKey where
  ref_pos : ℚ
  read_base : Char
  ref_base : Char
deriving DecidableEq

/-- The base alphabet seeded at every reference position
(`for base in ['A', 'G', 'T', 'C', '-']`). -/
def baseAlphabet : List Char := ['A', 'G', 'T', 'C', '-']

/-- Dummy zero-count keys: one per reference position (1-indexed) and base
(`convert_called_bases_to_freqs` dummy rows). -/
def dummyKeys (refChars : List Char) : List GroupKey :=
  (refChars.enum.map (fun ic =>
    baseAlphabet.map (fun b => ⟨((ic.1 + 1 : ℕ) : ℚ), b, ic.2⟩))).flatten

/-- Group key of a base-call record. -/
def keyOf (r : BCR) : GroupKey := ⟨r.ref_pos, r.read_base, r.ref_base⟩

/-- All group keys of the aggregated table: the dummy grid plus every key
observed in some file (order irrelevant to the claims; first occurrence kept). -/
def allKeys (files : List (List BCR)) (refChars : List Char) : List GroupKey :=
  uniqueFirst (dummyKeys refChars ++ (files.flatten.map keyOf))

/-- `base_count` at a key: per file, the number of distinct `read_id`s in the
group (`agg read_id nunique`), summed over files (`DataFrame.add` with
`fill_value=0`). -/
def baseCountAt (files : List (List BCR)) (k : GroupKey) : ℕ :=
  (files.map (fun f =>
    (uniqueFirst ((f.filter (fun r => decide (keyOf r = k))).map (fun r => r.read_id))).length)).sum

/-- Sum of `overlap` over the group, across all files. -/
def overlapSumAt (files : List (List BCR)) (k : GroupKey) : ℕ :=
  ((files.flatten.filter (fun r => decide (keyOf r = k))).map (fun r => r.overlap)).sum

/-- Sum of `quality` over the group, across all files. -/
def qualitySumAt (files : List (List BCR)) (k : GroupKey) : ℕ :=
  ((files.flatten.filter (fun r => decide (keyOf r = k))).map (fun r => r.quality)).sum

/-- One grouped row before the derived statistics are computed
(the table after `freqs.reset_index()`, lines 32-46 of `aggregation.py`). -/
structure AggKeyRow where
  ref_pos : ℚ
  read_base : Char
  ref_base : Char
  base_count : ℕ
  overlap : ℕ
  quality : ℕ
deriving DecidableEq

/-- The grouped table with per-key sums. -/
def grouped_called_bases (files : List (List BCR)) (refChars : List Char) :
    List AggKeyRow :=
  (allKeys files refChars).map (fun k =>
    ⟨k.ref_pos, k.read_base, k.ref_base, baseCountAt files k,
      overlapSumAt files k, qualitySumAt files k⟩)

/-- One row of the output of `aggregate_called_bases` (the helper columns
`overlap`, `quality`, `total_times_called` are dropped). -/
structure AggRow2 where
  ref_pos : ℚ
  read_base : Char
  ref_base : Char
  base_count : ℕ
  overlap_frac : ℚ
  avg_qscore : ℚ
deriving DecidableEq

/-- Embedding of `aggregate_called_bases` (lines 37-54): with no input files
the table is empty; otherwise overlap_frac = overlap/base_count/2 (the
`fillna(0)` 0/0 case is division by zero, which is 0 in ℚ),
avg_qscore = round(quality/total_times_called, 1), and ref_pos is rounded
to 3 decimals. -/
def aggregate_called_bases (files : List (List BCR)) (refChars : List Char) :
    List AggRow2 :=
  if files.isEmpty then []
  else
    (grouped_called_bases files refChars).map (fun a =>
      ⟨roundDec 3 a.ref_pos, a.read_base, a.ref_base, a.base_count,
        (a.overlap : ℚ) / (a.base_count : ℚ) / 2,
        roundDec 1 ((a.quality : ℚ) /
          ((a.base_count : ℚ) * (1 + (a.overlap : ℚ) / (a.base_count : ℚ) / 2)))⟩)

/-- One row of the emitted frequency table (`freqs.tsv`). -/
structure FreqRow where
  ref_pos : ℚ
  read_base : Char
  ref_base : Char
  base_count : ℕ
  overlap_frac : ℚ
  avg_qscore : ℚ
  coverage : ℕ
  frequency : ℚ
  base_rank : ℚ
  probability : ℚ
deriving DecidableEq

/-- Per-position coverage lookup: `coverage = freqs.groupby('ref_pos').base_count.sum()`
indexed at an exact position value (a missing key would be a python
`KeyError`; here the sum over no rows is 0). -/
def coverageAt (ag : List AggRow2) (q : ℚ) : ℕ :=
  ((ag.filter (fun a => decide (a.ref_pos = q))).map (fun a => a.base_count)).sum

/-- Number of distinct `read_base` values in the whole table
(`freqs.read_base.nunique()`). -/
def nuniqueBases (ag : List AggRow2) : ℕ :=
  (uniqueFirst (ag.map (fun a => a.read_base))).length

/-- Ascending rank with ties sharing the minimum rank
(`groupby('ref_pos').base_count.rank('min')`): one plus the number of rows
of the same exact position with a strictly smaller `base_count`. -/
def rankMin (ag : List AggRow2) (a : AggRow2) : ℕ :=
  1 + (ag.filter (fun b =>
        decide (b.ref_pos = a.ref_pos) && decide (b.base_count < a.base_count))).length

/-- Derived statistics of one row (`create_freqs_file` lines 60-65): coverage
is looked up at `round(pos)` (banker's rounding), `frequency` is
base_count/coverage with the 0/0 `fillna` giving 0, `base_rank` is
`nunique - rank('min')`, `probability = 1 - (1-frequency)^coverage`, and all
rational columns are rounded to 4 decimals by `round(freqs, 4)`. -/
def mkFreqRow (ag : List AggRow2) (a : AggRow2) : FreqRow :=
  let cov := coverageAt ag (roundHalfEvenQ a.ref_pos)
  let freq := (a.base_count : ℚ) / (cov : ℚ)
  { ref_pos := roundDec 4 a.ref_pos
    read_base := a.read_base
    ref_base := a.ref_base
    base_count := a.base_count
    overlap_frac := roundDec 4 a.overlap_frac
    avg_qscore := roundDec 4 a.avg_qscore
    coverage := cov
    frequency := roundDec 4 freq
    base_rank := roundDec 4 ((nuniqueBases ag : ℚ) - (rankMin ag a : ℚ))
    probability := roundDec 4 (1 - (1 - freq) ^ cov) }

/-- Embedding of `create_freqs_file` (lines 57-66): the emitted frequency
table as a list of rows. -/
def create_freqs_file (files : List (List BCR)) (refChars : List Char) :
    List FreqRow :=
  let ag := aggregate_called_bases files refChars
  ag.map (mkFreqRow ag)

/-! ### Consensus Builder (spec §4.2)

Modelled from the spec: `create_consensus_file` is imported from `utils`
by `aggregation.py` and `runner.py` but its definition is not among the
source files; the following functions follow spec §4.2 for integer
positions: select the row with `base_rank = 0` at position `p`; emit `'N'`
when the row is absent, its coverage is below `min_coverage` or its
frequency below `min_frequency`; otherwise emit its `read_base`. -/

/-- The chosen row at integer position `p`: the `base_rank = 0` row whose
`ref_pos` is exactly `p`. -/
def chosenAt (freqs : List FreqRow) (p : ℕ) : Option FreqRow :=
  (freqs.filter (fun r => decide (r.base_rank = 0) && decide (r.ref_pos = (p : ℚ)))).head?

/-- Modelled from the spec: the consensus character emitted at integer
position `p`. -/
def consensusChar (freqs : List FreqRow) (minCov minFreq : ℚ) (p : ℕ) : Char :=
  match chosenAt freqs p with
  | none => 'N'
  | some r => if (r.coverage : ℚ) < minCov ∨ r.frequency < minFreq then 'N' else r.read_base

/-- Modelled from the spec: the consensus over integer positions `1..L`. -/
def create_consensus_chars (freqs : List FreqRow) (minCov minFreq : ℚ) (L : ℕ) :
    List Char :=
  (List.range L).map (fun i => consensusChar freqs minCov minFreq (i + 1))

/-! ### `create_new_ref_with_freqs` (`utils.py` lines 110-132)

The consensus-from-freqs builder that fills unaligned parts with the
original reference: rows with `base_rank = 0` are kept, `read_base` of
rows with `coverage <= min_coverage` is set to `None`, rows with
`frequency <= 0.5` are dropped, and with `drop_indels` also non-integer
positions and `'-'` read bases; the result is outer-merged with the
reference (positions `1..L`), sorted by position, `read_base` is filled
from the reference, `'-'` replaced by `NaN` and dropped, and the
characters concatenated. -/

/-- One merged row: position, masked `read_base` (`none` = NaN) and the
reference character at the position (`none` when the position is not an
integer of `1..L`). -/
structure NRow where
  pos : ℚ
  rb : Option Char
  rc : Option Char
deriving DecidableEq

/-- The reference character at an exact position value, per the pandas
merge on the reference index `1.0 .. L.0`. -/
def refCharAt (refChars : List Char) (q : ℚ) : Option Char :=
  if q.den = 1 ∧ 1 ≤ q.num ∧ q.num ≤ (refChars.length : ℤ) then
    refChars[q.num.toNat - 1]?
  else none

/-- Lines 121-126: filter to `base_rank = 0`, mask `read_base` at
`coverage <= min_coverage`, keep `frequency > 0.5`, and with `drop_indels`
keep only integer positions and non-deletion read bases. -/
def maskedRows (freqs : List FreqRow) (minCov : ℚ) (dropIndels : Bool) :
    List (ℚ × Option Char) :=
  let d1 := freqs.filter (fun r => decide (r.base_rank = 0))
  let d2 := d1.map (fun r =>
    (r, if (r.coverage : ℚ) ≤ minCov then (none : Option Char) else some r.read_base))
  let d3 := d2.filter (fun rc => decide ((1 : ℚ)/2 < rc.1.frequency))
  let d4 := if dropIndels then
      d3.filter (fun rc =>
        decide (rc.1.ref_pos = roundHalfEvenQ rc.1.ref_pos) && decide (rc.2 ≠ some '-'))
    else d3
  d4.map (fun rc => (rc.1.ref_pos, rc.2))

/-- Line 127: outer merge of the filtered rows with the reference index. -/
def mergedRows (freqs : List FreqRow) (minCov : ℚ) (dropIndels : Bool)
    (refChars : List Char) : List NRow :=
  let df := maskedRows freqs minCov dropIndels
  let matched := df.map (fun pr => ⟨pr.1, pr.2, refCharAt refChars pr.1⟩)
  let unmatched := (List.range refChars.length).filterMap (fun i =>
    if df.any (fun pr => decide (pr.1 = ((i + 1 : ℕ) : ℚ))) then none
    else some (⟨((i + 1 : ℕ) : ℚ), none, refChars[i]?⟩ : NRow))
  matched ++ unmatched

/-- Line 127: `sort_values(by='ref_pos')`. -/
def mergedSorted (freqs : List FreqRow) (minCov : ℚ) (dropIndels : Bool)
    (refChars : List Char) : List NRow :=
  (mergedRows freqs minCov dropIndels refChars).mergeSort
    (fun a b => decide (a.pos ≤ b.pos))

/-- Line 128: `fillna(ref_base_from_fasta).replace('-', nan).dropna()` for
one row — the characters the row contributes to the output. -/
def contribution (r : NRow) : List Char :=
  match r.rb.orElse (fun _ => r.rc) with
  | none => []
  | some c => if c = '-' then [] else [c]

/-- Embedding of `create_new_ref_with_freqs`: the emitted sequence. -/
def create_new_ref_with_freqs (freqs : List FreqRow) (minCov : ℚ)
    (dropIndels : Bool) (refChars : List Char) : List Char :=
  ((mergedSorted freqs minCov dropIndels refChars).map contribution).flatten

/-- The characters emitted at exact position `p` (used to state what the
builder does at one reference position). -/
def emittedAt (freqs : List FreqRow) (minCov : ℚ) (dropIndels : Bool)
    (refChars : List Char) (p : ℕ) : List Char :=
  (((mergedSorted freqs minCov dropIndels refChars).filter
      (fun nr => decide (nr.pos = (p : ℚ)))).map contribution).flatten

/-! ### Aggregation coordinator guard (`aggregation.py` lines 150-153) -/

/-- Embedding of the called-bases check in `aggregate_processed_output`:
when cleanup is not `"Y"`, an empty list of `called_bases` files raises. -/
def aggregate_processed_output (cleanup : String) (called_bases_files : List String) :
    Except String Unit :=
  if cleanup ≠ "Y" then
    if called_bases_files.length = 0 then
      Except.error "Could not find files of type *.called_bases"
    else Except.ok ()
  else Except.ok ()

/-! ### Runner error handling (`runner.py` lines 329-399) -/

/-- Embedding of the `try/except` around the pipeline body: an exception is
logged and recorded as a failure status in `meta_data.json`, and the
function returns normally, so the interpreter exits 0. -/
def exit_status : Except String Unit → ℕ × String
  | Except.ok _ => (0, "Done")
  | Except.error _ => (0, "Failed! see logs for details.")

/-- Embedding of `runner`: `validate_input` runs before the `try`, so a
validation error propagates (non-zero interpreter exit, modelled by
`Except.error`); every later failure is swallowed by the handler. -/
def runner (validation : Except String Unit) (body : Except String Unit) :
    Except String (ℕ × String) :=
  match validation with
  | Except.error e => Except.error e
  | Except.ok _ => Except.ok (exit_status body)

/-! ### Iterative refinement driver (`runner.py` `process_data`, lines 260-286)

One iteration's external work (parallel processing, freqs creation,
consensus and alignment) is abstracted as a deterministic function of the
current reference returning (alignment score, alignment, consensus path). -/

/-- Per-iteration oracle: reference ↦ (score, alignment, consensus). -/
def StepFn : Type := String → ℚ × String × String

/-- The references fed to successive iterations: `R_1` is the input
reference and `R_{k+1}` is the consensus derived in iteration `k`. -/
def refSeq (step : StepFn) (ref : String) : ℕ → String
  | 0 => ref
  | n + 1 => (step (refSeq step ref n)).2.2

/-- The `for basecall_iteration_counter in range(1, max+1)` loop: `fuel`
iterations remain, `k` iterations have run, `ref` is the current reference
and `aligns` the accumulated alignment history. -/
def process_data_loop (step : StepFn) :
    ℕ → ℕ → String → List String → String × List String × ℕ
  | 0, k, ref, aligns => (ref, aligns, k)
  | fuel + 1, k, ref, aligns =>
    let s := step ref
    if s.1 = 1 then (ref, aligns ++ [s.2.1], k + 1)
    else process_data_loop step fuel (k + 1) s.2.2 (aligns ++ [s.2.1])

/-- Embedding of `process_data`: run up to `maxIter` iterations and return
(final reference, alignment history, iteration counter). -/
def process_data (step : StepFn) (maxIter : ℕ) (ref : String) :
    String × List String × ℕ :=
  process_data_loop step maxIter 0 ref []

/-! ### Concrete scenario inputs (spec §8) -/

/-- Exit code of a modelled process result: the recorded code on a normal
return, 1 for an uncaught exception. -/
def exit_code : Except String (ℕ × String) → ℕ
  | Except.ok p => p.1
  | Except.error _ => 1

/-- Scenario S2: a single base-call record at position 1 with read base A. -/
def s2bcr : List BCR := [⟨1, 'A', 'A', "r1", 0, 0⟩]

/-- Scenario S4: five reads calling A and five calling G at position 1. -/
def s4bcrs : List BCR :=
  [⟨1, 'A', 'A', "a1", 0, 0⟩, ⟨1, 'A', 'A', "a2", 0, 0⟩, ⟨1, 'A', 'A', "a3", 0, 0⟩,
   ⟨1, 'A', 'A', "a4", 0, 0⟩, ⟨1, 'A', 'A', "a5", 0, 0⟩,
   ⟨1, 'G', 'A', "g1", 0, 0⟩, ⟨1, 'G', 'A', "g2", 0, 0⟩, ⟨1, 'G', 'A', "g3", 0, 0⟩,
   ⟨1, 'G', 'A', "g4", 0, 0⟩, ⟨1, 'G', 'A', "g5", 0, 0⟩]

/-- Coverage counterexample input: ten reads calling A at position 1 and ten
reads calling G at the insertion position 1.001. -/
def c3bcrs : List BCR :=
  (List.range 10).map (fun i => ⟨1, 'A', 'A', "a" ++ toString i, 0, 0⟩) ++
  (List.range 10).map (fun i => ⟨1001/1000, 'G', 'A', "g" ++ toString i, 0, 0⟩)

/-- Scenario S5: a single read with overlap 2 and quality 60. -/
def s5bcr : List BCR := [⟨1, 'A', 'A', "r1", 2, 60⟩]

/-- Scenario S6 read id: 31 `A`s followed by `-xyz`. -/
def idA : String := String.mk (List.replicate 31 'A') ++ "-xyz"

/-- Default row used with `List.getD` in concrete statements. -/
def defaultFreqRow : FreqRow := ⟨0, 'N', 'N', 0, 0, 0, 0, 0, 0, 0⟩

/-- Default aggregate row used with `List.getD` in concrete statements. -/
def defaultAggRow : AggRow2 := ⟨0, 'N', 'N', 0, 0, 0⟩

/-- A concrete iteration oracle used by the loop theorem's witness:
the first iteration does not converge and rewrites the reference to `"B"`,
every later iteration converges. -/
def stepW : StepFn := fun r => if r = "A" then (1/2, "a1", "B") else (1, "a2", r)

/-! ### Theorems -/

/-- Claim C7 counterexample: with no `called_bases` files and cleanup not
requested, the aggregation stage raises instead of proceeding. -/
theorem claim_C7_counterexample :
    aggregate_processed_output "N" [] ≠ Except.ok () := by
  unfold aggregate_processed_output
  simp

/-- Claim C7 (amended): the aggregation stage succeeds past the
called-bases check iff cleanup is `"Y"` or at least one `called_bases`
file is present; with zero files and cleanup ≠ `"Y"` it raises the
`Could not find files` exception. -/
theorem claim_C7_no_matches (cleanup : String) (files : List String) :
    aggregate_processed_output cleanup files = Except.ok ()
      ↔ (cleanup = "Y" ∨ files ≠ []) := by
  unfold aggregate_processed_output
  by_cases h : cleanup = "Y" <;> cases files <;> simp [h]

/-- Claim C8 counterexample: a failure after input validation is swallowed
by the top-level handler and the process exits 0, not non-zero. -/
theorem claim_C8_counterexample :
    exit_code (runner (Except.ok ()) (Except.error "stage failure")) = 0 := by
  rfl

/-- Claim C8 (amended): after successful input validation the runner always
returns normally with exit code 0 — on failure it only records the status
`Failed! see logs for details.` — while a validation error itself
propagates; so a non-zero exit happens only for validation errors, and
exit 0 does not imply success. -/
theorem claim_C8_exit_status :
    (∀ body : Except String Unit,
        runner (Except.ok ()) body = Except.ok (exit_status body)) ∧
    (∀ body : Except String Unit, (exit_status body).1 = 0) ∧
    (∀ e : String, ∀ body : Except String Unit,
        runner (Except.error e) body = Except.error e) ∧
    (∀ e : String,
        exit_status (Except.error e) = (0, "Failed! see logs for details.")) := by
  refine ⟨fun body => rfl, fun body => ?_, fun e body => rfl, fun e => rfl⟩
  cases body <;> rfl

/-! ### Prefix dictionary lemmas -/

theorem any_key_iff_mem (D : List (String × ℕ)) (p : String) :
    (D.any (fun e => decide (e.1 = p)) = true) ↔ p ∈ dictKeys D := by
  simp [List.any_eq_true, dictKeys, List.mem_map]

theorem update_prefix_dict_go (ps : List String) :
    ∀ (D : List (String × ℕ)) (n : ℕ),
      ps.foldl (fun acc p =>
          if acc.1.any (fun e => decide (e.1 = p)) then acc
          else (acc.1 ++ [(p, acc.2)], acc.2 + 1)) (D, n)
        = (D ++ (newKeys (dictKeys D) ps).zip
              (List.range' n (newKeys (dictKeys D) ps).length),
           n + (newKeys (dictKeys D) ps).length) := by
  induction ps with
  | nil => intro D n; simp [newKeys]
  | cons p ps ih =>
    intro D n
    rw [List.foldl_cons]
    by_cases hp : p ∈ dictKeys D
    · have hany : (D.any (fun e => decide (e.1 = p))) = true := (any_key_iff_mem D p).2 hp
      simp only [hany, if_true]
      rw [ih D n]
      simp [newKeys, hp]
    · have hany : ¬ (D.any (fun e => decide (e.1 = p)) = true) :=
        fun h => hp ((any_key_iff_mem D p).1 h)
      simp only [Bool.not_eq_true] at hany
      simp only [hany, Bool.false_eq_true, if_false]
      rw [ih (D ++ [(p, n)]) (n + 1)]
      have hkeys : dictKeys (D ++ [(p, n)]) = dictKeys D ++ [p] := by
        simp [dictKeys]
      rw [hkeys]
      have hnew : newKeys (dictKeys D) (p :: ps) = p :: newKeys (dictKeys D ++ [p]) ps := by
        simp [newKeys, hp]
      rw [hnew]
      simp only [List.length_cons, List.range'_succ, List.zip_cons_cons, Prod.mk.injEq]
      constructor
      · rw [List.append_assoc]
        rfl
      · omega

theorem update_prefix_dict_eq (d : List (String × ℕ)) (ps : List String) :
    update_prefix_dict d ps
      = d ++ (newKeys (dictKeys d) ps).zip
          (List.range' (maxVal d + 1) (newKeys (dictKeys d) ps).length) := by
  unfold update_prefix_dict
  rw [update_prefix_dict_go]

theorem lookupP_append_left (d t : List (String × ℕ)) (k : String) (v : ℕ)
    (h : lookupP d k = some v) : lookupP (d ++ t) k = some v := by
  unfold lookupP at h ⊢
  cases hf : d.find? (fun e => decide (e.1 = k)) with
  | none => rw [hf] at h; simp at h
  | some e =>
    rw [hf] at h
    rw [List.find?_append, hf]
    simpa using h

theorem lookupP_update_preserve (d : List (String × ℕ)) (ps : List String)
    (k : String) (v : ℕ) (h : lookupP d k = some v) :
    lookupP (update_prefix_dict d ps) k = some v := by
  rw [update_prefix_dict_eq]
  exact lookupP_append_left _ _ _ _ h

theorem newKeys_nodup_not_mem (ps : List String) :
    ∀ ks, (newKeys ks ps).Nodup ∧ ∀ p ∈ newKeys ks ps, p ∉ ks := by
  induction ps with
  | nil => intro ks; simp [newKeys]
  | cons p ps ih =>
    intro ks
    by_cases hp : p ∈ ks
    · simpa [newKeys, hp] using ih ks
    · simp only [newKeys, if_neg hp]
      obtain ⟨hnd, hnm⟩ := ih (ks ++ [p])
      refine ⟨List.Nodup.cons (fun hmem => (hnm p hmem) (by simp)) hnd, ?_⟩
      intro q hq
      rcases List.mem_cons.1 hq with rfl | hq
      · exact hp
      · intro hqks
        exact (hnm q hq) (List.mem_append_left _ hqks)

theorem foldr_max_range' (n : ℕ) :
    ∀ s, List.foldr max 0 (List.range' (s + 1) n) = if n = 0 then 0 else s + n := by
  induction n with
  | zero => intro s; simp
  | succ m ih =>
    intro s
    rw [List.range'_succ, List.foldr_cons, ih (s + 1)]
    by_cases hm : m = 0
    · simp [hm]
    · rw [if_neg hm, if_neg (Nat.succ_ne_zero m)]
      omega

theorem maxVal_of_range (d : List (String × ℕ))
    (h : dictVals d = List.range' 1 d.length) : maxVal d = d.length := by
  unfold maxVal
  rw [h]
  have := foldr_max_range' d.length 0
  simp only [Nat.zero_add] at this
  rw [this]
  by_cases hl : d.length = 0 <;> simp [hl]

theorem reachable_dict_invariant :
    ∀ d, ReachableDict d → dictVals d = List.range' 1 d.length ∧ (dictKeys d).Nodup := by
  intro d h
  induction h with
  | base => simp [dictVals, dictKeys]
  | step d ps _ ih =>
    obtain ⟨hv, hk⟩ := ih
    have hmax : maxVal d = d.length := maxVal_of_range d hv
    rw [update_prefix_dict_eq, hmax]
    set nk := newKeys (dictKeys d) ps with hnk
    have hzlen : (nk.zip (List.range' (d.length + 1) nk.length)).length = nk.length := by
      rw [List.length_zip, List.length_range', Nat.min_self]
    have hsnd : (nk.zip (List.range' (d.length + 1) nk.length)).map Prod.snd
        = List.range' (d.length + 1) nk.length := by
      apply List.map_snd_zip
      rw [List.length_range']
    have hfst : (nk.zip (List.range' (d.length + 1) nk.length)).map Prod.fst = nk := by
      apply List.map_fst_zip
      rw [List.length_range']
    constructor
    · unfold dictVals
      unfold dictVals at hv
      rw [List.map_append, hv, hsnd, List.length_append, hzlen]
      have happ := List.range'_append 1 d.length nk.length 1
      simp only [Nat.one_mul, Nat.mul_one] at happ
      rw [Nat.add_comm 1 d.length] at happ
      rw [happ, Nat.add_comm nk.length d.length]
    · unfold dictKeys
      unfold dictKeys at hk
      rw [List.map_append, hfst]
      apply List.Nodup.append hk (newKeys_nodup_not_mem ps (dictKeys d)).1
      intro a ha hna
      exact ((newKeys_nodup_not_mem ps (dictKeys d)).2 a hna) ha

theorem lookupP_trim_preserve (files : List (List String)) :
    ∀ (d : List (String × ℕ)) (k : String) (v : ℕ),
      lookupP d k = some v → lookupP (trim_read_id_prefixes files d).2 k = some v := by
  unfold trim_read_id_prefixes
  simp only []
  induction files with
  | nil => intro d k v h; simpa using h
  | cons f fs ih =>
    intro d k v h
    rw [List.foldl_cons]
    by_cases hf : f.isEmpty
    · simp only [hf, if_true]
      exact ih d k v h
    · simp only [hf, Bool.false_eq_true, if_false]
      exact ih _ k v (lookupP_update_preserve d _ k v h)

/-- Claim C6: updating the prefix dictionary never changes the value of an
existing key; the update appends exactly the new keys, in insertion order,
with values `max(existing values)+1`, `+2`, ...; and every dictionary
reachable from the empty one has unique keys, unique values, and values
forming exactly the set `{1..|dict|}`. -/
theorem claim_C6_prefix_dict :
    (∀ (d : List (String × ℕ)) (ps : List String) (k : String) (v : ℕ),
        lookupP d k = some v → lookupP (update_prefix_dict d ps) k = some v) ∧
    (∀ (d : List (String × ℕ)) (ps : List String),
        update_prefix_dict d ps
          = d ++ (newKeys (dictKeys d) ps).zip
              (List.range' (maxVal d + 1) (newKeys (dictKeys d) ps).length)) ∧
    (∀ d : List (String × ℕ), ReachableDict d →
        (dictKeys d).Nodup ∧ (dictVals d).Nodup ∧
          ∀ v : ℕ, v ∈ dictVals d ↔ (1 ≤ v ∧ v ≤ d.length)) := by
  refine ⟨lookupP_update_preserve, update_prefix_dict_eq, ?_⟩
  intro d hd
  obtain ⟨hv, hk⟩ := reachable_dict_invariant d hd
  refine ⟨hk, ?_, ?_⟩
  · rw [hv]
    exact List.nodup_range' 1 d.length
  · intro v
    rw [hv, List.mem_range'_1]
    omega

/-- Witness for claim C6 at concrete inputs. -/
theorem claim_C6_prefix_dict_witness :
    lookupP (update_prefix_dict [("p", 1)] ["q", "p"]) "p" = some 1 ∧
    (dictKeys (update_prefix_dict [] ["a", "b", "a"])).Nodup :=
  ⟨claim_C6_prefix_dict.1 [("p", 1)] ["q", "p"] "p" 1 (by decide),
   (claim_C6_prefix_dict.2.2 (update_prefix_dict [] ["a", "b", "a"])
      (ReachableDict.step [] ["a", "b", "a"] ReachableDict.base)).1⟩

/-- Claim C5 counterexample: running the Prefix Compactor a second time on
the output of a first run over the scenario-S6 file changes the file
again, so the second run's outputs do not equal its inputs. -/
theorem claim_C5_counterexample :
    (trim_read_id_prefixes (trim_read_id_prefixes [[idA]] []).1
        (trim_read_id_prefixes [[idA]] []).2).1
      ≠ (trim_read_id_prefixes [[idA]] []).1 := by
  decide

/-- Claim C5 (amended): a second run of the Prefix Compactor preserves
every existing dictionary entry, but re-trims each rewritten read id on
its new 31-character prefix, assigning fresh values; concretely the file
`["AAAA...A-xyz"]` (31 As) becomes `["1--xyz"]` with dictionary
`{"A"*31 : 1}`, and a second run turns it into `["2-"]` with dictionary
`{"A"*31 : 1, "1--xyz" : 2}`. -/
theorem claim_C5_second_run :
    (∀ (files : List (List String)) (d : List (String × ℕ)) (k : String) (v : ℕ),
        lookupP d k = some v → lookupP (trim_read_id_prefixes files d).2 k = some v) ∧
    (trim_read_id_prefixes [[idA]] []
        = ([["1--xyz"]], [(String.mk (List.replicate 31 'A'), 1)])) ∧
    (trim_read_id_prefixes [["1--xyz"]] [(String.mk (List.replicate 31 'A'), 1)]
        = ([["2-"]], [(String.mk (List.replicate 31 'A'), 1), ("1--xyz", 2)])) := by
  refine ⟨fun files => lookupP_trim_preserve files, ?_, ?_⟩ <;> decide

/-- Witness for claim C5's amended statement at concrete inputs. -/
theorem claim_C5_second_run_witness :
    lookupP (trim_read_id_prefixes [["1--xyz"]]
        [(String.mk (List.replicate 31 'A'), 1)]).2
      (String.mk (List.replicate 31 'A')) = some 1 :=
  claim_C5_second_run.1 [["1--xyz"]] [(String.mk (List.replicate 31 'A'), 1)]
    (String.mk (List.replicate 31 'A')) 1 (by decide)

/-! ### Iteration loop lemmas -/

theorem refSeq_shift (step : StepFn) (ref : String) :
    ∀ n, refSeq step ref (n + 1) = refSeq step ((step ref).2.2) n := by
  intro n
  induction n with
  | zero => rfl
  | succ m ih =>
    show (step (refSeq step ref (m + 1))).2.2 = (step (refSeq step ((step ref).2.2) m)).2.2
    rw [ih]

theorem process_data_loop_conv (step : StepFn) :
    ∀ (fuel k : ℕ) (ref : String) (al : List String) (j : ℕ),
      j < fuel → (step (refSeq step ref j)).1 = 1 →
      (∀ i, i < j → (step (refSeq step ref i)).1 ≠ 1) →
      process_data_loop step fuel k ref al
        = (refSeq step ref j,
           al ++ (List.range (j + 1)).map (fun i => (step (refSeq step ref i)).2.1),
           k + j + 1) := by
  intro fuel
  induction fuel with
  | zero => intro k ref al j hj; exact absurd hj (Nat.not_lt_zero j)
  | succ m ih =>
    intro k ref al j hj hconv hmin
    cases j with
    | zero =>
      have hc : (step ref).1 = 1 := hconv
      simp only [process_data_loop, hc, if_true]
      rfl
    | succ j' =>
      have h0 : (step ref).1 ≠ 1 := hmin 0 (Nat.succ_pos j')
      simp only [process_data_loop, h0, if_false]
      rw [ih (k + 1) ((step ref).2.2) (al ++ [(step ref).2.1]) j' (by omega)
        (by rw [← refSeq_shift]; exact hconv)
        (fun i hi => by rw [← refSeq_shift]; exact hmin (i + 1) (by omega))]
      simp only [Prod.mk.injEq]
      refine ⟨(refSeq_shift step ref j').symm, ?_, by omega⟩
      rw [List.append_assoc]
      congr 1
      rw [List.range_succ_eq_map (j' + 1), List.map_cons, List.map_map,
        List.singleton_append]
      congr 1
      apply List.map_congr_left
      intro i _
      show (step (refSeq step ((step ref).2.2) i)).2.1 = (step (refSeq step ref (i + 1))).2.1
      rw [refSeq_shift]

theorem process_data_loop_exhaust (step : StepFn) :
    ∀ (fuel k : ℕ) (ref : String) (al : List String),
      (∀ j, j < fuel → (step (refSeq step ref j)).1 ≠ 1) →
      process_data_loop step fuel k ref al
        = (refSeq step ref fuel,
           al ++ (List.range fuel).map (fun i => (step (refSeq step ref i)).2.1),
           k + fuel) := by
  intro fuel
  induction fuel with
  | zero => intro k ref al _; simp [process_data_loop, refSeq]
  | succ m ih =>
    intro k ref al hmin
    have h0 : (step ref).1 ≠ 1 := hmin 0 (Nat.succ_pos m)
    simp only [process_data_loop, h0, if_false]
    rw [ih (k + 1) ((step ref).2.2) (al ++ [(step ref).2.1])
      (fun i hi => by rw [← refSeq_shift]; exact hmin (i + 1) (by omega))]
    simp only [Prod.mk.injEq]
    refine ⟨(refSeq_shift step ref m).symm, ?_, by omega⟩
    rw [List.append_assoc]
    congr 1
    rw [List.range_succ_eq_map m, List.map_cons, List.map_map, List.singleton_append]
    congr 1
    apply List.map_congr_left
    intro i _
    show (step (refSeq step ((step ref).2.2) i)).2.1 = (step (refSeq step ref (i + 1))).2.1
    rw [refSeq_shift]

/-- Claim C9: with `max_basecall_iterations = maxIter ≥ 1` the driver
performs between 1 and `maxIter` iterations and terminates; if iteration
`j+1` is the first whose alignment score is 1, the loop stops there and
returns the reference used in that iteration unchanged (not the newly
derived consensus), with the alignment history of the executed iterations;
after exhausting all iterations without a score of 1 it returns the last
consensus together with the full history. -/
theorem claim_C9_iteration_loop (step : StepFn) (maxIter : ℕ) (ref : String)
    (hmax : 1 ≤ maxIter) :
    (1 ≤ (process_data step maxIter ref).2.2 ∧
      (process_data step maxIter ref).2.2 ≤ maxIter) ∧
    (∀ j, j < maxIter → (step (refSeq step ref j)).1 = 1 →
      (∀ i, i < j → (step (refSeq step ref i)).1 ≠ 1) →
      process_data step maxIter ref
        = (refSeq step ref j,
           (List.range (j + 1)).map (fun i => (step (refSeq step ref i)).2.1),
           j + 1)) ∧
    ((∀ j, j < maxIter → (step (refSeq step ref j)).1 ≠ 1) →
      process_data step maxIter ref
        = (refSeq step ref maxIter,
           (List.range maxIter).map (fun i => (step (refSeq step ref i)).2.1),
           maxIter)) := by
  refine ⟨?_, ?_, ?_⟩
  · by_cases h : ∃ j, j < maxIter ∧ (step (refSeq step ref j)).1 = 1
    · have hd : DecidablePred (fun j => (step (refSeq step ref j)).1 = 1) :=
        fun j => inferInstance
      obtain ⟨j0, hj0, hc0⟩ := h
      have hex : ∃ j, (step (refSeq step ref j)).1 = 1 := ⟨j0, hc0⟩
      have hfind := Nat.find_spec hex
      have hfle : Nat.find hex ≤ j0 := Nat.find_le hc0
      have := process_data_loop_conv step maxIter 0 ref [] (Nat.find hex)
        (by omega) hfind (fun i hi => Nat.find_min hex hi)
      unfold process_data
      rw [this]
      simp only []
      omega
    · push_neg at h
      have := process_data_loop_exhaust step maxIter 0 ref []
        (fun j hj => h j hj)
      unfold process_data
      rw [this]
      simp only []
      omega
  · intro j hj hc hmin
    unfold process_data
    rw [process_data_loop_conv step maxIter 0 ref [] j hj hc hmin]
    simp
  · intro hmin
    unfold process_data
    rw [process_data_loop_exhaust step maxIter 0 ref [] hmin]
    simp

/-- Witness for claim C9 with a concrete oracle that converges in the
second of two allowed iterations. -/
theorem claim_C9_iteration_loop_witness :
    1 ≤ (process_data stepW 2 "A").2.2 ∧ (process_data stepW 2 "A").2.2 ≤ 2 :=
  (claim_C9_iteration_loop stepW 2 "A" (by decide)).1

/-! ### Frequency table lemmas -/

theorem roundDec_zero (d : ℕ) : roundDec d 0 = 0 := by
  unfold roundDec
  rw [zero_mul]
  have h : ((0 : ℤ) : ℚ) = 0 := by norm_num
  rw [← h, roundHalfEvenInt_intCast]
  norm_num

theorem filter_map_helper {α β : Type} (f : α → β) (p : β → Bool) (l : List α) :
    (l.map f).filter p = (l.filter (fun a => p (f a))).map f := by
  induction l with
  | nil => rfl
  | cons x xs ih =>
    simp only [List.map_cons, List.filter_cons]
    by_cases hx : p (f x) = true
    · rw [hx]
      simp only [if_true, List.map_cons, ih]
    · simp only [Bool.not_eq_true] at hx
      rw [hx]
      simp only [Bool.false_eq_true, if_false, ih]

theorem agg_ref_pos_round (files : List (List BCR)) (refChars : List Char) :
    ∀ a ∈ aggregate_called_bases files refChars, roundDec 4 a.ref_pos = a.ref_pos := by
  intro a ha
  unfold aggregate_called_bases at ha
  by_cases h : files.isEmpty
  · rw [if_pos h] at ha
    simp at ha
  · rw [if_neg h] at ha
    obtain ⟨g, _, rfl⟩ := List.mem_map.1 ha
    exact roundDec_four_three g.ref_pos

set_option maxRecDepth 40000 in
/-- Claim C3 counterexample: on a table with ten calls at position 1 and
ten at the insertion position 1.001, the emitted coverage is not the sum
of `base_count` over rows sharing the integer part of `ref_pos` (the code
sums only the exact-position group looked up at `round(ref_pos)`). -/
theorem claim_C3_counterexample :
    ¬ (∀ r ∈ create_freqs_file [c3bcrs] ['A'],
        r.coverage = (((create_freqs_file [c3bcrs] ['A']).filter
            (fun s => decide (⌊s.ref_pos⌋ = ⌊r.ref_pos⌋))).map
              (fun s => s.base_count)).sum) := by
  with_unfolding_all decide

/-- Claim C3 (amended): for every row of the frequency table, `coverage`
equals the sum of `base_count` over the rows whose `ref_pos` is exactly
the banker's rounding of that row's `ref_pos` to an integer — not over
all rows sharing its integer part. -/
theorem claim_C3_coverage (files : List (List BCR)) (refChars : List Char)
    (r : FreqRow) (hr : r ∈ create_freqs_file files refChars) :
    r.coverage = (((create_freqs_file files refChars).filter
        (fun s => decide (s.ref_pos = roundHalfEvenQ r.ref_pos))).map
          (fun s => s.base_count)).sum := by
  unfold create_freqs_file at hr ⊢
  set ag := aggregate_called_bases files refChars with hag
  obtain ⟨a, ha, rfl⟩ := List.mem_map.1 hr
  have hida : ∀ b ∈ ag, (mkFreqRow ag b).ref_pos = b.ref_pos := by
    intro b hb
    show roundDec 4 b.ref_pos = b.ref_pos
    exact agg_ref_pos_round files refChars b (hag ▸ hb)
  rw [filter_map_helper]
  rw [List.filter_congr (p := fun b =>
      decide ((mkFreqRow ag b).ref_pos = roundHalfEvenQ (mkFreqRow ag a).ref_pos))
      (q := fun b => decide (b.ref_pos = roundHalfEvenQ a.ref_pos))
      (fun b hb => by rw [decide_eq_decide, hida b hb, hida a ha])]
  rw [List.map_map]
  rw [List.map_congr_left (fun b _ =>
    show ((fun s => s.base_count) ∘ mkFreqRow ag) b = b.base_count from rfl)]
  rfl

set_option maxRecDepth 40000 in
/-- Witness for claim C3's amended statement at a concrete row. -/
theorem claim_C3_coverage_witness :
    ((create_freqs_file [c3bcrs] ['A']).getD 0 defaultFreqRow).coverage
      = (((create_freqs_file [c3bcrs] ['A']).filter
          (fun s => decide (s.ref_pos = roundHalfEvenQ
            ((create_freqs_file [c3bcrs] ['A']).getD 0 defaultFreqRow).ref_pos))).map
              (fun s => s.base_count)).sum :=
  claim_C3_coverage [c3bcrs] ['A'] _ (by with_unfolding_all decide)

/-- Claim C2 counterexample: at a position with `base_count` A=5, G=5 and
zero for the other three bases (five distinct read bases in the table),
the code does not give A and G `base_rank = 0` and T, C, `-`
`base_rank = 3`: it gives 1 and 4. -/
theorem claim_C2_counterexample :
    ¬ (∀ r ∈ create_freqs_file [s4bcrs] ['A'],
        ((r.read_base = 'A' ∨ r.read_base = 'G') → r.base_rank = 0) ∧
        ((r.read_base = 'T' ∨ r.read_base = 'C' ∨ r.read_base = '-') →
          r.base_rank = 3)) := by
  with_unfolding_all decide

/-- Claim C2 (amended): `base_rank` is `nunique(read_base) − rank_min`;
ties do share a common rank (rows of one position with equal `base_count`
get equal `base_rank`), but at base_count A=5, G=5, T=C=-=0 with five
distinct read bases, A and G both get `base_rank = 1` and T, C, `-` get
`base_rank = 4` — the most-common base gets rank 0 only when untied in a
full five-row group. -/
theorem claim_C2_tie_rank :
    (∀ (files : List (List BCR)) (refChars : List Char) (r1 r2 : FreqRow),
        r1 ∈ create_freqs_file files refChars →
        r2 ∈ create_freqs_file files refChars →
        r1.ref_pos = r2.ref_pos → r1.base_count = r2.base_count →
        r1.base_rank = r2.base_rank) ∧
    ((create_freqs_file [s4bcrs] ['A']).map (fun r => (r.read_base, r.base_rank))
        = [('A', 1), ('G', 1), ('T', 4), ('C', 4), ('-', 4)]) := by
  constructor
  · intro files refChars r1 r2 h1 h2 hpos hbc
    unfold create_freqs_file at h1 h2
    set ag := aggregate_called_bases files refChars with hag
    obtain ⟨a1, ha1, rfl⟩ := List.mem_map.1 h1
    obtain ⟨a2, ha2, rfl⟩ := List.mem_map.1 h2
    have hp1 : roundDec 4 a1.ref_pos = a1.ref_pos :=
      agg_ref_pos_round files refChars a1 (hag ▸ ha1)
    have hp2 : roundDec 4 a2.ref_pos = a2.ref_pos :=
      agg_ref_pos_round files refChars a2 (hag ▸ ha2)
    have hpos2 : a1.ref_pos = a2.ref_pos := by
      have h : roundDec 4 a1.ref_pos = roundDec 4 a2.ref_pos := hpos
      rw [hp1, hp2] at h
      exact h
    have hbc2 : a1.base_count = a2.base_count := hbc
    have hrank : rankMin ag a1 = rankMin ag a2 := by
      unfold rankMin
      rw [hpos2, hbc2]
    show roundDec 4 ((nuniqueBases ag : ℚ) - (rankMin ag a1 : ℚ))
      = roundDec 4 ((nuniqueBases ag : ℚ) - (rankMin ag a2 : ℚ))
    rw [hrank]
  · with_unfolding_all decide

set_option maxRecDepth 40000 in
/-- Witness for claim C2's amended statement: the tied rows A and G of the
scenario share one `base_rank`. -/
theorem claim_C2_tie_rank_witness :
    ((create_freqs_file [s4bcrs] ['A']).getD 0 defaultFreqRow).base_rank
      = ((create_freqs_file [s4bcrs] ['A']).getD 1 defaultFreqRow).base_rank :=
  claim_C2_tie_rank.1 [s4bcrs] ['A'] _ _
    (by with_unfolding_all decide) (by with_unfolding_all decide)
    (by with_unfolding_all decide) (by with_unfolding_all decide)

/-- Claim C4: for every row of the aggregated table, overlap_ratio is
(sum of overlap)/base_count/2 (0 when base_count = 0) and avg_qscore is
(sum of quality)/(base_count·(1+overlap_ratio)) rounded to one decimal
(0 when undefined); a single read with overlap=2 and quality=60 at a
position with base_count=1 yields overlap_ratio 1 and avg_qscore 30 in
the emitted frequency table. -/
theorem claim_C4_overlap_correction :
    (∀ (files : List (List BCR)) (refChars : List Char) (r : AggRow2),
        r ∈ aggregate_called_bases files refChars →
        ∃ a ∈ grouped_called_bases files refChars,
          r.base_count = a.base_count ∧
          r.overlap_frac = (a.overlap : ℚ) / (a.base_count : ℚ) / 2 ∧
          (a.base_count = 0 → r.overlap_frac = 0) ∧
          r.avg_qscore = roundDec 1 ((a.quality : ℚ) /
            ((a.base_count : ℚ) * (1 + r.overlap_frac))) ∧
          (a.base_count = 0 → r.avg_qscore = 0)) ∧
    (∃ r ∈ create_freqs_file [s5bcr] ['A'],
        r.read_base = 'A' ∧ r.base_count = 1 ∧ r.overlap_frac = 1 ∧
        r.avg_qscore = 30) := by
  constructor
  · intro files refChars r hr
    unfold aggregate_called_bases at hr
    by_cases h : files.isEmpty
    · rw [if_pos h] at hr
      simp at hr
    · rw [if_neg h] at hr
      obtain ⟨a, ha, rfl⟩ := List.mem_map.1 hr
      refine ⟨a, ha, rfl, rfl, ?_, rfl, ?_⟩
      · intro h0
        show (a.overlap : ℚ) / (a.base_count : ℚ) / 2 = 0
        rw [h0]
        norm_num
      · intro h0
        show roundDec 1 ((a.quality : ℚ) /
          ((a.base_count : ℚ) * (1 + (a.overlap : ℚ) / (a.base_count : ℚ) / 2))) = 0
        rw [h0]
        norm_num
        exact roundDec_zero 1
  · with_unfolding_all decide

/-- Witness for claim C4's first part at the scenario-S5 row. -/
theorem claim_C4_overlap_correction_witness :
    ∃ a ∈ grouped_called_bases [s5bcr] ['A'],
      ((aggregate_called_bases [s5bcr] ['A']).getD 0 defaultAggRow).base_count
          = a.base_count ∧
      ((aggregate_called_bases [s5bcr] ['A']).getD 0 defaultAggRow).overlap_frac
          = (a.overlap : ℚ) / (a.base_count : ℚ) / 2 ∧
      (a.base_count = 0 →
        ((aggregate_called_bases [s5bcr] ['A']).getD 0 defaultAggRow).overlap_frac = 0) ∧
      ((aggregate_called_bases [s5bcr] ['A']).getD 0 defaultAggRow).avg_qscore
          = roundDec 1 ((a.quality : ℚ) / ((a.base_count : ℚ) *
              (1 + ((aggregate_called_bases [s5bcr] ['A']).getD 0 defaultAggRow).overlap_frac))) ∧
      (a.base_count = 0 →
        ((aggregate_called_bases [s5bcr] ['A']).getD 0 defaultAggRow).avg_qscore = 0) :=
  claim_C4_overlap_correction.1 [s5bcr] ['A'] _ (by with_unfolding_all decide)

/-- Claim C1: in the consensus derived from the frequency table, position
`p` (1-indexed) emits `'N'` when the `base_rank = 0` row at `p` is absent,
its coverage is below `min_coverage`, or its frequency below
`min_frequency`, and otherwise emits that row's `read_base`; in
particular for reference `"AC"` with one base call at position 1 (read
base A) and `min_coverage = 2` the consensus is `"NN"`. -/
theorem claim_C1_consensus_masking :
    (∀ (freqs : List FreqRow) (minCov minFreq : ℚ) (L p : ℕ), 1 ≤ p → p ≤ L →
      ((create_consensus_chars freqs minCov minFreq L)[p - 1]?
          = some (consensusChar freqs minCov minFreq p)) ∧
      (chosenAt freqs p = none → consensusChar freqs minCov minFreq p = 'N') ∧
      (∀ r, chosenAt freqs p = some r →
        (((r.coverage : ℚ) < minCov ∨ r.frequency < minFreq) →
            consensusChar freqs minCov minFreq p = 'N') ∧
        (¬ ((r.coverage : ℚ) < minCov ∨ r.frequency < minFreq) →
            consensusChar freqs minCov minFreq p = r.read_base))) ∧
    (create_consensus_chars (create_freqs_file [s2bcr] ['A', 'C']) 2 (1/2) 2
        = ['N', 'N']) := by
  constructor
  · intro freqs minCov minFreq L p hp hpL
    refine ⟨?_, ?_, ?_⟩
    · unfold create_consensus_chars
      rw [List.getElem?_map, List.getElem?_range (by omega)]
      have hpe : p - 1 + 1 = p := by omega
      rw [Option.map_some', hpe]
    · intro h
      unfold consensusChar
      rw [h]
    · intro r h
      unfold consensusChar
      rw [h]
      constructor
      · intro hcond
        show (if (r.coverage : ℚ) < minCov ∨ r.frequency < minFreq then 'N'
          else r.read_base) = 'N'
        rw [if_pos hcond]
      · intro hcond
        show (if (r.coverage : ℚ) < minCov ∨ r.frequency < minFreq then 'N'
          else r.read_base) = r.read_base
        rw [if_neg hcond]
  · with_unfolding_all decide

/-- Witness for claim C1 at the scenario-S2 table, position 1. -/
theorem claim_C1_consensus_masking_witness :
    (create_consensus_chars (create_freqs_file [s2bcr] ['A', 'C']) 2 (1/2) 2)[0]?
      = some (consensusChar (create_freqs_file [s2bcr] ['A', 'C']) 2 (1/2) 1) :=
  (claim_C1_consensus_masking.1 (create_freqs_file [s2bcr] ['A', 'C'])
    2 (1/2) 2 1 (by decide) (by decide)).1

/-! ### Lemmas for `create_new_ref_with_freqs` -/

theorem chosenAt_eq (freqs : List FreqRow) (p : ℕ) :
    chosenAt freqs p
      = ((freqs.filter (fun r => decide (r.base_rank = 0))).filter
          (fun r => decide (r.ref_pos = (p : ℚ)))).head? := by
  unfold chosenAt
  rw [List.filter_filter]
  exact congrArg List.head? (List.filter_congr (fun a _ => Bool.and_comm _ _))

theorem filter_singleton_of_pairwise {α : Type} (key : α → ℚ) (q : ℚ) :
    ∀ (l : List α) (x : α), l.Pairwise (fun a b => key a ≠ key b) → x ∈ l →
      key x = q → l.filter (fun a => decide (key a = q)) = [x] := by
  intro l
  induction l with
  | nil => intro x _ hx; cases hx
  | cons y ys ih =>
    intro x hpw hx hkx
    obtain ⟨hhead, htail⟩ := List.pairwise_cons.1 hpw
    rcases List.mem_cons.1 hx with rfl | hx
    · rw [List.filter_cons, if_pos (by simpa using hkx)]
      have hnil : ys.filter (fun a => decide (key a = q)) = [] := by
        rw [List.filter_eq_nil_iff]
        intro a ha
        simp only [decide_eq_true_eq]
        intro haq
        exact hhead a ha (hkx.trans haq.symm)
      rw [hnil]
    · have hyq : ¬ key y = q := fun hyq => hhead x hx (hyq.trans hkx.symm)
      rw [List.filter_cons, if_neg (by simpa using hyq)]
      exact ih x htail hx hkx

theorem maskedRows_mem_char (freqs : List FreqRow) (minCov : ℚ) (dropIndels : Bool) :
    ∀ pr ∈ maskedRows freqs minCov dropIndels,
      ∃ r ∈ freqs.filter (fun r => decide (r.base_rank = 0)),
        pr.1 = r.ref_pos ∧ 1/2 < r.frequency ∧
        pr.2 = (if (r.coverage : ℚ) ≤ minCov then none else some r.read_base) := by
  intro pr hpr
  unfold maskedRows at hpr
  obtain ⟨rc, hrc, rfl⟩ := List.mem_map.1 hpr
  have hrc3 : rc ∈ ((freqs.filter (fun r => decide (r.base_rank = 0))).map
      (fun r => (r, if (r.coverage : ℚ) ≤ minCov then (none : Option Char)
        else some r.read_base))).filter
      (fun rc => decide ((1 : ℚ)/2 < rc.1.frequency)) := by
    by_cases hDI : dropIndels
    · rw [if_pos hDI] at hrc
      exact (List.mem_filter.1 hrc).1
    · rw [if_neg hDI] at hrc
      exact hrc
  obtain ⟨hrc2, hfr⟩ := List.mem_filter.1 hrc3
  obtain ⟨r, hr, rfl⟩ := List.mem_map.1 hrc2
  exact ⟨r, hr, rfl, by simpa using hfr, rfl⟩

theorem maskedRows_pairwise (freqs : List FreqRow) (minCov : ℚ) (dropIndels : Bool)
    (hpw : (freqs.filter (fun r => decide (r.base_rank = 0))).Pairwise
      (fun a b => a.ref_pos ≠ b.ref_pos)) :
    (maskedRows freqs minCov dropIndels).Pairwise (fun a b => a.1 ≠ b.1) := by
  unfold maskedRows
  apply List.pairwise_map.2
  have h2 : (((freqs.filter (fun r => decide (r.base_rank = 0))).map
      (fun r => (r, if (r.coverage : ℚ) ≤ minCov then (none : Option Char)
        else some r.read_base)))).Pairwise
      (fun a b => a.1.ref_pos ≠ b.1.ref_pos) := by
    apply List.pairwise_map.2
    exact hpw
  have h3 : ((((freqs.filter (fun r => decide (r.base_rank = 0))).map
      (fun r => (r, if (r.coverage : ℚ) ≤ minCov then (none : Option Char)
        else some r.read_base)))).filter
      (fun rc => decide ((1 : ℚ)/2 < rc.1.frequency))).Pairwise
      (fun a b => a.1.ref_pos ≠ b.1.ref_pos) :=
    List.Pairwise.sublist (List.filter_sublist _) h2
  by_cases hDI : dropIndels
  · rw [if_pos hDI]
    exact List.Pairwise.sublist (List.filter_sublist _) h3
  · rw [if_neg hDI]
    exact h3

theorem maskedRows_presence (freqs : List FreqRow) (minCov : ℚ) (dropIndels : Bool)
    (p : ℕ) (r : FreqRow) (hr : chosenAt freqs p = some r)
    (hfr : 1/2 < r.frequency) (hcov : (r.coverage : ℚ) ≤ minCov) :
    ((p : ℚ), (none : Option Char)) ∈ maskedRows freqs minCov dropIndels := by
  rw [chosenAt_eq] at hr
  obtain ⟨t, ht⟩ := List.head?_eq_some_iff.1 hr
  have hrmem : r ∈ (freqs.filter (fun r => decide (r.base_rank = 0))).filter
      (fun r => decide (r.ref_pos = (p : ℚ))) := by
    rw [ht]
    exact List.mem_cons_self r t
  obtain ⟨hr0, hrp⟩ := List.mem_filter.1 hrmem
  have hrp2 : r.ref_pos = (p : ℚ) := by simpa using hrp
  unfold maskedRows
  apply List.mem_map.2
  refine ⟨(r, (none : Option Char)), ?_, by rw [hrp2]⟩
  have h2 : (r, (none : Option Char)) ∈ (freqs.filter
      (fun r => decide (r.base_rank = 0))).map
      (fun r => (r, if (r.coverage : ℚ) ≤ minCov then (none : Option Char)
        else some r.read_base)) := by
    apply List.mem_map.2
    exact ⟨r, hr0, by rw [if_pos hcov]⟩
  have h3 : (r, (none : Option Char)) ∈ ((freqs.filter
      (fun r => decide (r.base_rank = 0))).map
      (fun r => (r, if (r.coverage : ℚ) ≤ minCov then (none : Option Char)
        else some r.read_base))).filter
      (fun rc => decide ((1 : ℚ)/2 < rc.1.frequency)) := by
    apply List.mem_filter.2
    exact ⟨h2, by simpa using hfr⟩
  by_cases hDI : dropIndels
  · rw [if_pos hDI]
    apply List.mem_filter.2
    refine ⟨h3, ?_⟩
    have hround : roundHalfEvenQ r.ref_pos = r.ref_pos := by
      rw [hrp2, roundHalfEvenQ_natCast]
    simp [hround]
  · rw [if_neg hDI]
    exact h3

theorem refCharAt_natCast (refChars : List Char) (p : ℕ) (hp : 1 ≤ p)
    (hpL : p ≤ refChars.length) :
    refCharAt refChars ((p : ℕ) : ℚ) = refChars[p - 1]? := by
  unfold refCharAt
  have hcond : ((p : ℚ)).den = 1 ∧ 1 ≤ ((p : ℚ)).num ∧
      ((p : ℚ)).num ≤ (refChars.length : ℤ) := by
    refine ⟨Rat.den_natCast p, ?_, ?_⟩
    · rw [Rat.num_natCast]
      exact_mod_cast hp
    · rw [Rat.num_natCast]
      exact_mod_cast hpL
  rw [if_pos hcond]
  simp

theorem mergedRows_filter_absent (freqs : List FreqRow) (minCov : ℚ)
    (dropIndels : Bool) (refChars : List Char) (p : ℕ) (hp : 1 ≤ p)
    (hpL : p ≤ refChars.length)
    (habs : ∀ pr ∈ maskedRows freqs minCov dropIndels, pr.1 ≠ ((p : ℕ) : ℚ)) :
    (mergedRows freqs minCov dropIndels refChars).filter
        (fun nr => decide (nr.pos = (p : ℚ)))
      = [⟨(p : ℚ), none, refChars[p - 1]?⟩] := by
  unfold mergedRows
  rw [List.filter_append]
  have hmatched : ((maskedRows freqs minCov dropIndels).map
      (fun pr => (⟨pr.1, pr.2, refCharAt refChars pr.1⟩ : NRow))).filter
      (fun nr => decide (nr.pos = (p : ℚ))) = [] := by
    rw [List.filter_eq_nil_iff]
    intro a ha
    obtain ⟨pr, hpr, rfl⟩ := List.mem_map.1 ha
    simpa using habs pr hpr
  rw [hmatched, List.nil_append]
  have hpair : ((List.range refChars.length).filterMap (fun i =>
      if (maskedRows freqs minCov dropIndels).any
          (fun pr => decide (pr.1 = ((i + 1 : ℕ) : ℚ))) then none
      else some (⟨((i + 1 : ℕ) : ℚ), none, refChars[i]?⟩ : NRow))).Pairwise
      (fun a b => a.pos ≠ b.pos) := by
    apply List.pairwise_filterMap.2
    apply List.Pairwise.imp ?_ (List.pairwise_lt_range refChars.length)
    intro i j hij b hb b' hb'
    rw [Option.mem_def] at hb hb'
    have hbpos : b.pos = ((i + 1 : ℕ) : ℚ) := by
      split at hb
      · cases hb
      · cases hb
        rfl
    have hbpos' : b'.pos = ((j + 1 : ℕ) : ℚ) := by
      split at hb'
      · cases hb'
      · cases hb'
        rfl
    rw [hbpos, hbpos']
    intro hEq
    have hij2 : i + 1 = j + 1 := by exact_mod_cast hEq
    omega
  have hmem : (⟨(p : ℚ), none, refChars[p - 1]?⟩ : NRow)
      ∈ (List.range refChars.length).filterMap (fun i =>
        if (maskedRows freqs minCov dropIndels).any
            (fun pr => decide (pr.1 = ((i + 1 : ℕ) : ℚ))) then none
        else some (⟨((i + 1 : ℕ) : ℚ), none, refChars[i]?⟩ : NRow)) := by
    apply List.mem_filterMap.2
    refine ⟨p - 1, List.mem_range.2 (by omega), ?_⟩
    have hpe : p - 1 + 1 = p := by omega
    rw [if_neg]
    · rw [hpe]
    · intro hany
      obtain ⟨pr, hpr, hdec⟩ := List.any_eq_true.1 hany
      have hpr1 : pr.1 = ((p - 1 + 1 : ℕ) : ℚ) := of_decide_eq_true hdec
      rw [hpe] at hpr1
      exact habs pr hpr hpr1
  exact filter_singleton_of_pairwise (fun nr => nr.pos) ((p : ℕ) : ℚ) _ _ hpair hmem rfl

theorem mergedRows_filter_present (freqs : List FreqRow) (minCov : ℚ)
    (dropIndels : Bool) (refChars : List Char) (p : ℕ)
    (hpw : (freqs.filter (fun r => decide (r.base_rank = 0))).Pairwise
      (fun a b => a.ref_pos ≠ b.ref_pos))
    (hx : (((p : ℕ) : ℚ), (none : Option Char)) ∈ maskedRows freqs minCov dropIndels) :
    (mergedRows freqs minCov dropIndels refChars).filter
        (fun nr => decide (nr.pos = (p : ℚ)))
      = [⟨(p : ℚ), none, refCharAt refChars (p : ℚ)⟩] := by
  unfold mergedRows
  rw [List.filter_append]
  have hunmatched : ((List.range refChars.length).filterMap (fun i =>
      if (maskedRows freqs minCov dropIndels).any
          (fun pr => decide (pr.1 = ((i + 1 : ℕ) : ℚ))) then none
      else some (⟨((i + 1 : ℕ) : ℚ), none, refChars[i]?⟩ : NRow))).filter
      (fun nr => decide (nr.pos = (p : ℚ))) = [] := by
    rw [List.filter_eq_nil_iff]
    intro a ha
    obtain ⟨i, _, hfi⟩ := List.mem_filterMap.1 ha
    simp only [decide_eq_true_eq]
    intro hpos
    split at hfi
    · cases hfi
    · cases hfi
      rename_i hnotany
      apply hnotany
      apply List.any_eq_true.2
      refine ⟨(((p : ℕ) : ℚ), (none : Option Char)), hx, ?_⟩
      simp only [decide_eq_true_eq]
      exact hpos.symm
  rw [hunmatched, List.append_nil]
  have hpair : ((maskedRows freqs minCov dropIndels).map
      (fun pr => (⟨pr.1, pr.2, refCharAt refChars pr.1⟩ : NRow))).Pairwise
      (fun a b => a.pos ≠ b.pos) := by
    apply List.pairwise_map.2
    exact maskedRows_pairwise freqs minCov dropIndels hpw
  have hmem : (⟨(p : ℚ), none, refCharAt refChars (p : ℚ)⟩ : NRow)
      ∈ (maskedRows freqs minCov dropIndels).map
        (fun pr => (⟨pr.1, pr.2, refCharAt refChars pr.1⟩ : NRow)) :=
    List.mem_map.2 ⟨(((p : ℕ) : ℚ), (none : Option Char)), hx, rfl⟩
  exact filter_singleton_of_pairwise (fun nr => nr.pos) ((p : ℕ) : ℚ) _ _ hpair hmem rfl

theorem contribution_none_some (q : ℚ) (oc : Option Char) (c : Char)
    (hoc : oc = some c) (hc : c ≠ '-') :
    contribution ⟨q, none, oc⟩ = [c] := by
  unfold contribution
  rw [show (⟨q, none, oc⟩ : NRow).rb.orElse
      (fun _ => (⟨q, none, oc⟩ : NRow).rc) = oc from rfl, hoc]
  show (if c = '-' then [] else [c]) = [c]
  rw [if_neg hc]

/-- Claim C10: in `create_new_ref_with_freqs`, every reference position
whose chosen (`base_rank = 0`) row is masked by the coverage threshold
(`coverage <= min_coverage`), filtered out by the `frequency > 0.5` cut,
or absent from the frequency table, emits exactly the original reference
base from the input FASTA at that position (it is neither dropped nor
replaced by `'N'`); and no `'-'` character ever reaches the output, with
or without `drop_indels`. -/
theorem claim_C10_ref_fill :
    (∀ (freqs : List FreqRow) (minCov : ℚ) (dropIndels : Bool)
        (refChars : List Char),
      '-' ∉ refChars →
      (freqs.filter (fun r => decide (r.base_rank = 0))).Pairwise
        (fun a b => a.ref_pos ≠ b.ref_pos) →
      ∀ p : ℕ, 1 ≤ p → p ≤ refChars.length →
      (chosenAt freqs p = none ∨
        ∃ r, chosenAt freqs p = some r ∧
          ((r.coverage : ℚ) ≤ minCov ∨ r.frequency ≤ 1/2)) →
      emittedAt freqs minCov dropIndels refChars p
        = [refChars.getD (p - 1) 'N']) ∧
    (∀ (freqs : List FreqRow) (minCov : ℚ) (dropIndels : Bool)
        (refChars : List Char),
      '-' ∉ create_new_ref_with_freqs freqs minCov dropIndels refChars) := by
  constructor
  · intro freqs minCov dropIndels refChars hdash hpw p hp hpL hcase
    have hmain : (mergedRows freqs minCov dropIndels refChars).filter
        (fun nr => decide (nr.pos = (p : ℚ)))
        = [⟨(p : ℚ), none, refChars[p - 1]?⟩] := by
      rcases hcase with hnone | ⟨r, hr, hrcond⟩
      · apply mergedRows_filter_absent freqs minCov dropIndels refChars p hp hpL
        intro pr hpr hpr1
        obtain ⟨r', hr'0, hpr1', _, _⟩ :=
          maskedRows_mem_char freqs minCov dropIndels pr hpr
        rw [chosenAt_eq, List.head?_eq_none_iff] at hnone
        have hmem : r' ∈ (freqs.filter (fun r => decide (r.base_rank = 0))).filter
            (fun r => decide (r.ref_pos = (p : ℚ))) := by
          apply List.mem_filter.2
          refine ⟨hr'0, ?_⟩
          simp only [decide_eq_true_eq]
          rw [← hpr1']
          exact hpr1
        rw [hnone] at hmem
        cases hmem
      · by_cases hf : r.frequency ≤ 1/2
        · apply mergedRows_filter_absent freqs minCov dropIndels refChars p hp hpL
          intro pr hpr hpr1
          obtain ⟨r', hr'0, hpr1', hfr', _⟩ :=
            maskedRows_mem_char freqs minCov dropIndels pr hpr
          rw [chosenAt_eq] at hr
          obtain ⟨t, ht⟩ := List.head?_eq_some_iff.1 hr
          have hr'mem : r' ∈ (freqs.filter (fun r => decide (r.base_rank = 0))).filter
              (fun r => decide (r.ref_pos = (p : ℚ))) := by
            apply List.mem_filter.2
            refine ⟨hr'0, ?_⟩
            simp only [decide_eq_true_eq]
            rw [← hpr1']
            exact hpr1
          rw [ht] at hr'mem
          rcases List.mem_cons.1 hr'mem with rfl | hr't
          · exact absurd hfr' (not_lt.2 hf)
          · have hsub : ((freqs.filter (fun r => decide (r.base_rank = 0))).filter
                (fun r => decide (r.ref_pos = (p : ℚ)))).Pairwise
                (fun a b => a.ref_pos ≠ b.ref_pos) :=
              List.Pairwise.sublist (List.filter_sublist _) hpw
            rw [ht] at hsub
            obtain ⟨hhead, _⟩ := List.pairwise_cons.1 hsub
            have hrp : r.ref_pos = (p : ℚ) := by
              have hrmem : r ∈ (freqs.filter (fun r => decide (r.base_rank = 0))).filter
                  (fun r => decide (r.ref_pos = (p : ℚ))) := by
                rw [ht]
                exact List.mem_cons_self r t
              exact of_decide_eq_true (List.mem_filter.1 hrmem).2
            have hr'p : r'.ref_pos = (p : ℚ) := by
              rw [← hpr1']
              exact hpr1
            exact hhead r' hr't (by rw [hrp, hr'p])
        · have hcov : (r.coverage : ℚ) ≤ minCov := by
            rcases hrcond with h | h
            · exact h
            · exact absurd h hf
          have hfr : 1/2 < r.frequency := lt_of_not_le hf
          have hx := maskedRows_presence freqs minCov dropIndels p r hr hfr hcov
          rw [mergedRows_filter_present freqs minCov dropIndels refChars p hpw hx]
          rw [refCharAt_natCast refChars p hp hpL]
    have hperm := (List.mergeSort_perm (mergedRows freqs minCov dropIndels refChars)
        (fun a b => decide (a.pos ≤ b.pos))).filter
        (fun nr => decide (nr.pos = (p : ℚ)))
    rw [hmain] at hperm
    have hsorted : (mergedSorted freqs minCov dropIndels refChars).filter
        (fun nr => decide (nr.pos = (p : ℚ)))
        = [⟨(p : ℚ), none, refChars[p - 1]?⟩] :=
      List.perm_singleton.1 hperm
    unfold emittedAt
    rw [hsorted]
    have hlt : p - 1 < refChars.length := by omega
    have hrc : refChars[p - 1]? = some (refChars.getD (p - 1) 'N') := by
      rw [List.getElem?_eq_getElem hlt, List.getD_eq_getElem refChars 'N' hlt]
    have hcc : refChars.getD (p - 1) 'N' ≠ '-' := by
      intro hEq
      apply hdash
      rw [← hEq]
      rw [List.getD_eq_getElem refChars 'N' hlt]
      exact List.getElem_mem hlt
    rw [List.map_cons, List.map_nil,
      contribution_none_some (p : ℚ) refChars[p - 1]? (refChars.getD (p - 1) 'N') hrc hcc]
    rfl
  · intro freqs minCov dropIndels refChars hmem
    unfold create_new_ref_with_freqs at hmem
    rw [List.mem_flatten] at hmem
    obtain ⟨l, hl, hcl⟩ := hmem
    obtain ⟨nr, _, rfl⟩ := List.mem_map.1 hl
    unfold contribution at hcl
    cases hv : nr.rb.orElse (fun _ => nr.rc) with
    | none =>
      rw [hv] at hcl
      cases hcl
    | some c =>
      rw [hv] at hcl
      have hcl2 : '-' ∈ (if c = '-' then ([] : List Char) else [c]) := hcl
      by_cases hc : c = '-'
      · rw [if_pos hc] at hcl2
        cases hcl2
      · rw [if_neg hc] at hcl2
        exact hc (List.mem_singleton.1 hcl2).symm

/-- Witness for claim C10's first part: the empty frequency table and
reference `"A"` emit the reference base at position 1. -/
theorem claim_C10_ref_fill_witness :
    emittedAt [] 0 false ['A'] 1 = [(['A'].getD (1 - 1) 'N')] :=
  claim_C10_ref_fill.1 [] 0 false ['A'] (by decide) (by simp) 1 (by decide)
    (by decide) (Or.inl rfl)
